import Mathlib

/-!
# Verification of the amplitude-estimation decoder post-processing

Shallow embedding of the classical post-processing found in the notebooks:
the dense histogram fill, the bin-folding loop, the `sin²` estimator mapping,
the arg-max point estimator, the affine value decoder `ExpectedFx`, and the
noisy-run probability normalization.  Probabilities are modelled as exact
rationals (ℚ); the estimator values, which involve `sin`, as reals (ℝ).
Python behaviours that raise (division by zero, out-of-range numpy indexing)
are modelled with `Except String`.
-/

namespace Quantum

/-- Dense fill of the measured probabilities:
`all_probs = np.zeros(2**m); for sample in result: all_probs[sample.state.int] = sample.probability`.
Assignment semantics: each `(state, probability)` pair overwrites the entry at
`state`; entries never assigned stay `0`.  (`List.set` leaves the list
unchanged on an out-of-range index; the faulting variant is `denseFillE`.) -/
def denseFill (m : ℕ) (samples : List (ℕ × ℚ)) : List ℚ :=
  samples.foldl (fun arr s => arr.set s.1 s.2) (List.replicate (2 ^ m) 0)

/-- The same dense fill, with numpy's behaviour on an out-of-range index made
explicit: assignment `all_probs[state] = p` raises `IndexError` when
`state ≥ 2^m`.  No other validation is performed by the code. -/
def denseFillE (m : ℕ) (samples : List (ℕ × ℚ)) : Except String (List ℚ) :=
  samples.foldlM
    (fun arr s =>
      if s.1 < arr.length then Except.ok (arr.set s.1 s.2)
      else Except.error "IndexError: index out of bounds")
    (List.replicate (2 ^ m) 0)

/-- The bin-folding loop:
`probs = [all_probs[0]]; i = 1; while i < 2**m/2: probs.append(all_probs[i] + all_probs[2**m-i]); i += 1; probs.append(all_probs[2**(m-1)])`.
For `m ≥ 1` the loop runs `i = 1, …, 2^(m-1)-1` (the float condition
`i < 2**m/2` is exactly `i < 2^(m-1)`), embedded as a map over
`List.range' 1 (2^(m-1)-1)`. -/
def foldBins (m : ℕ) (ap : List ℚ) : List ℚ :=
  ap.getD 0 0 ::
    ((List.range' 1 (2 ^ (m - 1) - 1)).map (fun i => ap.getD i 0 + ap.getD (2 ^ m - i) 0)
      ++ [ap.getD (2 ^ (m - 1)) 0])

/-- The estimator mapping:
`a_tildes = [np.sin(i*np.pi/(2**nb_eval_qbits))**2 for i in range(2**(nb_eval_qbits-1)+1)]`. -/
noncomputable def a_tildes (m : ℕ) : List ℝ :=
  (List.range (2 ^ (m - 1) + 1)).map (fun (i : ℕ) => Real.sin (i * Real.pi / 2 ^ m) ^ 2)

/-- Scan kernel for `np.argmax`: keeps the current best index and value,
replacing them only on a strict increase, so the first occurrence of the
maximum wins.  `i` is the index of the head of `xs` in the full list. -/
def argmaxGo : List ℚ → ℕ → ℕ → ℚ → ℕ × ℚ
  | [], _, best, bestVal => (best, bestVal)
  | x :: rest, i, best, bestVal =>
      if bestVal < x then argmaxGo rest (i + 1) i x
      else argmaxGo rest (i + 1) best bestVal

/-- `np.argmax`: index of the first occurrence of the maximal element
(0 on the empty list, where numpy would raise). -/
def argmax : List ℚ → ℕ
  | [] => 0
  | x :: rest => (argmaxGo rest 1 0 x).1

/-- The point estimate `lucky_a_tilde = a_tildes[np.argmax(probs)]`: the
estimator value of the folded bin with maximal aggregated probability. -/
noncomputable def lucky_a_tilde (m : ℕ) (probs : List ℚ) : ℝ :=
  (a_tildes m).getD (argmax probs) 0

/-- The affine decoder:
`ExpectedFx(a) = ((a - 1/2)/c + 1/2) * (f_max - f_min) + f_min`. -/
def ExpectedFx (c fmin fmax a : ℚ) : ℚ :=
  let scaled_value := (a - 1 / 2) / c + 1 / 2
  scaled_value * (fmax - fmin) + fmin

/-- Python float division, which raises `ZeroDivisionError` on a zero
denominator. -/
def pyDiv (a b : ℚ) : Except String ℚ :=
  if b = 0 then Except.error "ZeroDivisionError: float division by zero"
  else Except.ok (a / b)

/-- The noisy-run normalization:
`prob_sum = sum([sample.probability for sample in result]); noisy_probabilities = [sample.probability/prob_sum for sample in result]`.
The division is unguarded; a zero `prob_sum` with a nonempty result raises
`ZeroDivisionError` at the first division. -/
def noisyProbabilities (samples : List (ℕ × ℚ)) : Except String (List ℚ) :=
  let prob_sum := (samples.map Prod.snd).sum
  samples.mapM (fun s => pyDiv s.2 prob_sum)

end Quantum

namespace Quantum

lemma one_le_two_pow_nat (n : ℕ) : 1 ≤ 2 ^ n :=
  Nat.one_le_two_pow

lemma two_pow_eq_double (m : ℕ) (hm : 1 ≤ m) : 2 ^ m = 2 * 2 ^ (m - 1) := by
  calc 2 ^ m = 2 ^ (m - 1 + 1) := by rw [Nat.sub_add_cancel hm]
  _ = 2 ^ (m - 1) * 2 := pow_succ 2 (m - 1)
  _ = 2 * 2 ^ (m - 1) := by ring

lemma sum_map_range' (f : ℕ → ℚ) (s n : ℕ) :
    ((List.range' s n).map f).sum = ∑ i in Finset.Ico s (s + n), f i := by
  induction n generalizing s with
  | zero => simp
  | succ n ih =>
      rw [List.range'_succ, List.map_cons, List.sum_cons, ih (s + 1),
        Finset.sum_eq_sum_Ico_succ_bot (by omega : s < s + (n + 1)) f]
      have hb : s + 1 + n = s + (n + 1) := by omega
      rw [hb]

lemma sum_eq_sum_getD (l : List ℚ) :
    l.sum = ∑ i in Finset.range l.length, l.getD i 0 := by
  induction l with
  | nil => simp
  | cons a t ih =>
      rw [List.sum_cons, List.length_cons, Finset.sum_range_succ']
      simp only [List.getD_cons_succ, List.getD_cons_zero]
      rw [ih]
      ring

/-- C1: for `m ≥ 1` and a dense array of length `2^m`, the bin folder produces
`2^(m-1)+1` bins; bin `0` is `probs[0]` alone, bin `k` for
`1 ≤ k ≤ 2^(m-1)-1` is `probs[k] + probs[2^m - k]`, and bin `2^(m-1)` is
`probs[2^(m-1)]` alone. -/
theorem foldBins_bins (m : ℕ) (hm : 1 ≤ m) (ap : List ℚ) (hlen : ap.length = 2 ^ m) :
    (foldBins m ap).length = 2 ^ (m - 1) + 1 ∧
    (foldBins m ap).getD 0 0 = ap.getD 0 0 ∧
    (∀ k, 1 ≤ k → k ≤ 2 ^ (m - 1) - 1 →
      (foldBins m ap).getD k 0 = ap.getD k 0 + ap.getD (2 ^ m - k) 0) ∧
    (foldBins m ap).getD (2 ^ (m - 1)) 0 = ap.getD (2 ^ (m - 1)) 0 := by
  have h1 : 1 ≤ 2 ^ (m - 1) := one_le_two_pow_nat (m - 1)
  have key : ∀ (L : List ℚ) (x a : ℚ) (k : ℕ), k = L.length + 1 →
      (a :: (L ++ [x])).getD k 0 = x := by
    intro L x a k hk
    subst hk
    rw [List.getD_cons_succ, List.getD_append_right _ _ _ _ (le_refl _),
      Nat.sub_self, List.getD_cons_zero]
  refine ⟨?_, ?_, ?_, ?_⟩
  · simp only [foldBins, List.length_cons, List.length_append, List.length_map,
      List.length_range', List.length_nil]
    omega
  · rfl
  · intro k hk1 hk2
    obtain ⟨j, rfl⟩ : ∃ j, k = j + 1 := ⟨k - 1, by omega⟩
    have hj : j < ((List.range' 1 (2 ^ (m - 1) - 1)).map
        (fun i => ap.getD i 0 + ap.getD (2 ^ m - i) 0)).length := by
      rw [List.length_map, List.length_range']
      omega
    rw [foldBins, List.getD_cons_succ, List.getD_append _ _ _ _ hj,
      List.getD_eq_getElem _ _ hj, List.getElem_map]
    rw [List.getElem_range'_1]
    rw [Nat.add_comm 1 j]
  · rw [foldBins]
    refine key _ _ _ _ ?_
    rw [List.length_map, List.length_range']
    omega

/-- C1 witness: the bin structure at `m = 1` on the dense array `[1, 0]`. -/
theorem foldBins_bins_witness :
    1 ≤ 1 ∧ ([(1 : ℚ), 0]).length = 2 ^ 1 ∧
    ((foldBins 1 [(1 : ℚ), 0]).length = 2 ^ (1 - 1) + 1 ∧
     (foldBins 1 [(1 : ℚ), 0]).getD 0 0 = ([(1 : ℚ), 0]).getD 0 0 ∧
     (∀ k, 1 ≤ k → k ≤ 2 ^ (1 - 1) - 1 →
       (foldBins 1 [(1 : ℚ), 0]).getD k 0 =
         ([(1 : ℚ), 0]).getD k 0 + ([(1 : ℚ), 0]).getD (2 ^ 1 - k) 0) ∧
     (foldBins 1 [(1 : ℚ), 0]).getD (2 ^ (1 - 1)) 0 = ([(1 : ℚ), 0]).getD (2 ^ (1 - 1)) 0) :=
  ⟨le_refl 1, by decide, foldBins_bins 1 (le_refl 1) [(1 : ℚ), 0] (by decide)⟩

/-- C2: for `m ≥ 1` and a dense histogram of length `2^m`, the folded bins sum
to exactly the sum of the dense histogram; in particular a histogram summing
to 1 folds to bins summing to 1. -/
theorem foldBins_sum (m : ℕ) (hm : 1 ≤ m) (ap : List ℚ) (hlen : ap.length = 2 ^ m) :
    (foldBins m ap).sum = ap.sum ∧ (ap.sum = 1 → (foldBins m ap).sum = 1) := by
  have h1 : 1 ≤ 2 ^ (m - 1) := one_le_two_pow_nat (m - 1)
  have hdouble : 2 ^ m = 2 * 2 ^ (m - 1) := two_pow_eq_double m hm
  have hmain : (foldBins m ap).sum = ap.sum := by
    rw [foldBins, List.sum_cons, List.sum_append, List.sum_singleton,
      sum_map_range' (fun i => ap.getD i 0 + ap.getD (2 ^ m - i) 0) 1 (2 ^ (m - 1) - 1)]
    have hb : 1 + (2 ^ (m - 1) - 1) = 2 ^ (m - 1) := by omega
    rw [hb, Finset.sum_add_distrib]
    rw [Finset.sum_Ico_reflect (fun j => ap.getD j 0) 1
      (by omega : 2 ^ (m - 1) ≤ 2 ^ m + 1)]
    have hlo : 2 ^ m + 1 - 2 ^ (m - 1) = 2 ^ (m - 1) + 1 := by omega
    have hhi : 2 ^ m + 1 - 1 = 2 ^ m := by omega
    rw [hlo, hhi, sum_eq_sum_getD, hlen, Finset.range_eq_Ico,
      Finset.sum_eq_sum_Ico_succ_bot (by omega : 0 < 2 ^ m) (fun i => ap.getD i 0),
      ← Finset.sum_Ico_consecutive (fun i => ap.getD i 0)
        (by omega : 1 ≤ 2 ^ (m - 1)) (by omega : 2 ^ (m - 1) ≤ 2 ^ m),
      Finset.sum_eq_sum_Ico_succ_bot (by omega : 2 ^ (m - 1) < 2 ^ m)
        (fun i => ap.getD i 0)]
    ring
  exact ⟨hmain, fun h => by rw [hmain, h]⟩

/-- C2 witness: mass conservation at `m = 1` on `[1/2, 1/2]`. -/
theorem foldBins_sum_witness :
    1 ≤ 1 ∧ ([(1 : ℚ)/2, 1/2]).length = 2 ^ 1 ∧
    ((foldBins 1 [(1 : ℚ)/2, 1/2]).sum = ([(1 : ℚ)/2, 1/2]).sum ∧
     (([(1 : ℚ)/2, 1/2]).sum = 1 → (foldBins 1 [(1 : ℚ)/2, 1/2]).sum = 1)) :=
  ⟨le_refl 1, by decide, foldBins_sum 1 (le_refl 1) [(1 : ℚ)/2, 1/2] (by decide)⟩

lemma getD_set_same (l : List ℚ) (i : ℕ) (v : ℚ) (h : i < l.length) :
    (l.set i v).getD i 0 = v := by
  simp [List.getD_eq_getElem?_getD, List.getElem?_set_self, h]

lemma getD_set_diff (l : List ℚ) (i j : ℕ) (v : ℚ) (h : i ≠ j) :
    (l.set i v).getD j 0 = l.getD j 0 := by
  simp [List.getD_eq_getElem?_getD, List.getElem?_set_ne h]

lemma getD_replicate_zero (n i : ℕ) : (List.replicate n (0 : ℚ)).getD i 0 = 0 := by
  simp [List.getD_eq_getElem?_getD, List.getElem?_replicate]
  split <;> simp

lemma sum_set_eq (l : List ℚ) (i : ℕ) (v : ℚ) (h : i < l.length) :
    (l.set i v).sum = l.sum - l.getD i 0 + v := by
  induction l generalizing i with
  | nil => simp at h
  | cons a t ih =>
      cases i with
      | zero =>
          simp only [List.set_cons_zero, List.sum_cons, List.getD_cons_zero]
          ring
      | succ i =>
          simp only [List.set_cons_succ, List.sum_cons, List.getD_cons_succ]
          rw [ih i (by simpa using Nat.lt_of_succ_lt_succ (by simpa using h))]
          ring

lemma foldl_set_length (samples : List (ℕ × ℚ)) :
    ∀ arr : List ℚ,
      (samples.foldl (fun arr s => arr.set s.1 s.2) arr).length = arr.length := by
  induction samples with
  | nil => intro arr; rfl
  | cons q rest ih =>
      intro arr
      rw [List.foldl_cons, ih]
      simp

lemma foldl_set_getD_not_mem (samples : List (ℕ × ℚ)) :
    ∀ (arr : List ℚ) (s : ℕ), s ∉ samples.map Prod.fst →
      (samples.foldl (fun arr q => arr.set q.1 q.2) arr).getD s 0 = arr.getD s 0 := by
  induction samples with
  | nil => intro arr s _; rfl
  | cons q rest ih =>
      intro arr s hs
      rw [List.map_cons, List.mem_cons] at hs
      push_neg at hs
      rw [List.foldl_cons, ih _ s hs.2, getD_set_diff _ _ _ _ (Ne.symm hs.1)]

lemma foldl_set_sum (samples : List (ℕ × ℚ)) :
    ∀ arr : List ℚ, (samples.map Prod.fst).Nodup →
      (∀ q ∈ samples, q.1 < arr.length ∧ arr.getD q.1 0 = 0) →
      (samples.foldl (fun arr q => arr.set q.1 q.2) arr).sum
        = arr.sum + (samples.map Prod.snd).sum := by
  induction samples with
  | nil => intro arr _ _; simp
  | cons q rest ih =>
      intro arr hnodup hq
      rw [List.map_cons, List.nodup_cons] at hnodup
      obtain ⟨hqlen, hqzero⟩ := hq q (List.mem_cons_self q rest)
      rw [List.foldl_cons, ih (arr.set q.1 q.2) hnodup.2 ?_]
      · rw [sum_set_eq arr q.1 q.2 hqlen, hqzero, List.map_cons, List.sum_cons]
        ring
      · intro r hr
        have hr1 : q.1 ≠ r.1 := by
          intro hcontra
          exact hnodup.1 (hcontra ▸ List.mem_map_of_mem Prod.fst hr)
        refine ⟨?_, ?_⟩
        · simpa using (hq r (List.mem_cons_of_mem q hr)).1
        · rw [getD_set_diff _ _ _ _ hr1]
          exact (hq r (List.mem_cons_of_mem q hr)).2

/-- C5 counterexample: the dense fill performs no renormalization.  For the
one-sample histogram `[(0, 1/2)]` with `m = 1`, the input probabilities have
positive sum `1/2`, yet the dense output sums to `1/2`, not `1`. -/
theorem denseFill_not_renormalized :
    (denseFill 1 [((0 : ℕ), (1 : ℚ)/2)]).sum = 1/2 ∧
    (0 : ℚ) < 1/2 ∧ ((1 : ℚ)/2) ≠ 1 := by
  refine ⟨?_, by norm_num, by norm_num⟩
  norm_num [denseFill, List.replicate]

/-- C5 (amended): for distinct in-range states, the dense fill output has
length `2^m` and sums to the sum of the input probabilities — it is not
divided by that sum, so it equals `1` only when the input already sums
to `1`. -/
theorem denseFill_length_sum (m : ℕ) (samples : List (ℕ × ℚ))
    (hnodup : (samples.map Prod.fst).Nodup) (hrange : ∀ q ∈ samples, q.1 < 2 ^ m) :
    (denseFill m samples).length = 2 ^ m ∧
    (denseFill m samples).sum = (samples.map Prod.snd).sum := by
  constructor
  · rw [denseFill, foldl_set_length]
    simp
  · rw [denseFill, foldl_set_sum samples _ hnodup ?_]
    · simp
    · intro q hq
      exact ⟨by simpa using hrange q hq, getD_replicate_zero _ _⟩

/-- C5 witness: length and sum of the dense fill of `[(0, 1/2)]` at `m = 1`. -/
theorem denseFill_length_sum_witness :
    ((([((0 : ℕ), (1 : ℚ)/2)]).map Prod.fst).Nodup ∧
     (∀ q ∈ [((0 : ℕ), (1 : ℚ)/2)], q.1 < 2 ^ 1)) ∧
    ((denseFill 1 [((0 : ℕ), (1 : ℚ)/2)]).length = 2 ^ 1 ∧
     (denseFill 1 [((0 : ℕ), (1 : ℚ)/2)]).sum = (([((0 : ℕ), (1 : ℚ)/2)]).map Prod.snd).sum) :=
  ⟨⟨by simp, by simp⟩,
    denseFill_length_sum 1 [((0 : ℕ), (1 : ℚ)/2)] (by simp) (by simp)⟩

/-- C10: dense-fill assignment semantics — a state absent from the input gets
probability exactly `0`, and when a state occurs more than once the final
entry is the probability of its last occurrence (assignment overwrites,
duplicates are not accumulated). -/
theorem denseFill_assignment (m : ℕ) (s : ℕ) (hs : s < 2 ^ m) :
    (∀ samples : List (ℕ × ℚ), s ∉ samples.map Prod.fst →
      (denseFill m samples).getD s 0 = 0) ∧
    (∀ (pre post : List (ℕ × ℚ)) (p : ℚ), s ∉ post.map Prod.fst →
      (denseFill m (pre ++ (s, p) :: post)).getD s 0 = p) := by
  constructor
  · intro samples hmem
    rw [denseFill, foldl_set_getD_not_mem samples _ s hmem, getD_replicate_zero]
  · intro pre post p hpost
    rw [denseFill, List.foldl_append, List.foldl_cons,
      foldl_set_getD_not_mem post _ s hpost,
      getD_set_same _ _ _ (by rw [foldl_set_length, List.length_replicate]; exact hs)]

/-- C10 witness: at `m = 1`, state `0` given twice keeps its last probability,
and in a fill not mentioning state `0` it stays `0`. -/
theorem denseFill_assignment_witness :
    0 < 2 ^ 1 ∧
    ((∀ samples : List (ℕ × ℚ), 0 ∉ samples.map Prod.fst →
        (denseFill 1 samples).getD 0 0 = 0) ∧
     (∀ (pre post : List (ℕ × ℚ)) (p : ℚ), 0 ∉ post.map Prod.fst →
        (denseFill 1 (pre ++ (0, p) :: post)).getD 0 0 = p)) :=
  ⟨by norm_num, denseFill_assignment 1 0 (by norm_num)⟩

/-- C6 counterexample: the empty simulator result has zero total probability,
yet the normalization code accepts it and returns an empty list instead of
rejecting it with an explicit error. -/
theorem noisyProbabilities_empty_ok :
    (([] : List (ℕ × ℚ)).map Prod.snd).sum = 0 ∧
    noisyProbabilities [] = Except.ok [] :=
  ⟨rfl, rfl⟩

/-- C6 (amended): the zero-sum case is unguarded.  A nonempty result whose
probabilities sum to `0` makes the normalization fault with a
`ZeroDivisionError` at the first division — there is no explicit zero-sum
validation — and the empty result (also summing to `0`) is accepted. -/
theorem noisyProbabilities_zero_sum (samples : List (ℕ × ℚ)) (hne : samples ≠ [])
    (hsum : (samples.map Prod.snd).sum = 0) :
    noisyProbabilities samples = Except.error "ZeroDivisionError: float division by zero" := by
  obtain ⟨q, rest, rfl⟩ : ∃ q rest, samples = q :: rest := by
    cases samples with
    | nil => exact absurd rfl hne
    | cons q rest => exact ⟨q, rest, rfl⟩
  show (q :: rest).mapM (fun s => pyDiv s.2 (((q :: rest).map Prod.snd).sum)) = _
  rw [hsum]
  simp only [List.mapM, List.mapM.loop, pyDiv, if_pos rfl]
  rfl

/-- C6 witness: the single-sample zero histogram `[(0, 0)]` faults with a
`ZeroDivisionError`. -/
theorem noisyProbabilities_zero_sum_witness :
    ([((0 : ℕ), (0 : ℚ))] ≠ [] ∧ (([((0 : ℕ), (0 : ℚ))]).map Prod.snd).sum = 0) ∧
    noisyProbabilities [((0 : ℕ), (0 : ℚ))] =
      Except.error "ZeroDivisionError: float division by zero" :=
  ⟨⟨by simp, by simp⟩,
    noisyProbabilities_zero_sum [((0 : ℕ), (0 : ℚ))] (by simp) (by simp)⟩

/-- C8 counterexample: no input validation exists.  The malformed histogram
`[(1, -1/2)]` with a negative probability is accepted by the dense fill,
which returns `[0, -1/2]` instead of rejecting it with a descriptive
error. -/
theorem denseFillE_accepts_negative :
    (-(1 : ℚ)/2 < 0) ∧
    denseFillE 1 [((1 : ℕ), -(1 : ℚ)/2)] = Except.ok [0, -(1 : ℚ)/2] := by
  refine ⟨by norm_num, ?_⟩
  norm_num [denseFillE, List.replicate, List.foldlM]

/-- C8 (amended): the decoder performs no validation.  Every sample list whose
states are in range — regardless of the sign or magnitude of the
probabilities, and with `m` never checked — is accepted, producing the plain
dense fill; the only fault is numpy's `IndexError` for an out-of-range
state. -/
theorem denseFillE_no_validation (m : ℕ) (samples : List (ℕ × ℚ))
    (hrange : ∀ q ∈ samples, q.1 < 2 ^ m) :
    denseFillE m samples = Except.ok (denseFill m samples) := by
  rw [denseFillE, denseFill]
  have hgen : ∀ (ss : List (ℕ × ℚ)) (arr : List ℚ), (∀ q ∈ ss, q.1 < arr.length) →
      ss.foldlM
        (fun arr s =>
          if s.1 < arr.length then Except.ok (arr.set s.1 s.2)
          else Except.error "IndexError: index out of bounds")
        arr = Except.ok (ss.foldl (fun arr s => arr.set s.1 s.2) arr) := by
    intro ss
    induction ss with
    | nil => intro arr _; rfl
    | cons q rest ih =>
        intro arr hq
        rw [List.foldlM_cons, if_pos (hq q (List.mem_cons_self q rest))]
        show rest.foldlM _ (arr.set q.1 q.2) = _
        rw [ih (arr.set q.1 q.2) ?_]
        · rfl
        · intro r hr
          simpa using hq r (List.mem_cons_of_mem q hr)
  exact hgen samples _ (fun q hq => by simpa using hrange q hq)

/-- C8 witness: the malformed negative-probability histogram is accepted. -/
theorem denseFillE_no_validation_witness :
    (∀ q ∈ [((1 : ℕ), -(1 : ℚ)/2)], q.1 < 2 ^ 1) ∧
    denseFillE 1 [((1 : ℕ), -(1 : ℚ)/2)] = Except.ok (denseFill 1 [((1 : ℕ), -(1 : ℚ)/2)]) :=
  ⟨by simp, denseFillE_no_validation 1 [((1 : ℕ), -(1 : ℚ)/2)] (by simp)⟩

/-- C4 counterexample: with `c = 1/2`, `f_min = 0`, `f_max = 1`, the affine
decoder maps estimator `1.0` to `3/2`, not to `1.0` as the claim states. -/
theorem ExpectedFx_half_at_one : ExpectedFx (1 / 2) 0 1 1 = 3 / 2 ∧ (3 / 2 : ℚ) ≠ 1 := by
  constructor
  · norm_num [ExpectedFx]
  · norm_num

/-- C4 (amended): with `c = 1/2`, `f_min = 0`, `f_max = 1`, the affine decoder
computed as `((a - 1/2)/c + 1/2)·(f_max - f_min) + f_min` maps estimator `0.5`
to `0.5`, estimator `1.0` to `1.5`, and estimator `0.0` to `-0.5`. -/
theorem ExpectedFx_half_values :
    ExpectedFx (1 / 2) 0 1 (1 / 2) = 1 / 2 ∧
    ExpectedFx (1 / 2) 0 1 1 = 3 / 2 ∧
    ExpectedFx (1 / 2) 0 1 0 = -(1 / 2) := by
  refine ⟨?_, ?_, ?_⟩ <;> norm_num [ExpectedFx]

lemma a_tildes_getD (m k : ℕ) (hk : k < 2 ^ (m - 1) + 1) :
    (a_tildes m).getD k 0 = Real.sin (k * Real.pi / 2 ^ m) ^ 2 := by
  have hk' : k < ((List.range (2 ^ (m - 1) + 1)).map
      (fun (i : ℕ) => Real.sin (i * Real.pi / 2 ^ m) ^ 2)).length := by
    rw [List.length_map, List.length_range]
    exact hk
  rw [a_tildes, List.getD_eq_getElem _ _ hk', List.getElem_map, List.getElem_range]

/-- C3: for `m ≥ 1` the estimator values `sin²(kπ/2^m)` are strictly
increasing in the folded-bin index `k` over `0 ≤ k ≤ 2^(m-1)`, so folded-bin
index and estimator value are in 1:1 order-preserving correspondence. -/
theorem a_tildes_strictMono (m : ℕ) (hm : 1 ≤ m) (k l : ℕ) (hkl : k < l)
    (hl : l ≤ 2 ^ (m - 1)) :
    (a_tildes m).getD k 0 < (a_tildes m).getD l 0 := by
  rw [a_tildes_getD m k (by omega), a_tildes_getD m l (by omega)]
  have hpi : (0 : ℝ) < Real.pi := Real.pi_pos
  have h2m : (0 : ℝ) < 2 ^ m := by positivity
  have hdouble : (2 : ℝ) ^ m = 2 ^ (m - 1) * 2 := by
    rw [← pow_succ]
    congr 1
    omega
  have hklR : (k : ℝ) < l := by exact_mod_cast hkl
  have hlR : (l : ℝ) ≤ 2 ^ (m - 1) := by exact_mod_cast hl
  have hangle_lt : (k : ℝ) * Real.pi / 2 ^ m < l * Real.pi / 2 ^ m := by
    gcongr
  have hangle_le : (l : ℝ) * Real.pi / 2 ^ m ≤ Real.pi / 2 := by
    rw [hdouble]
    rw [div_le_div_iff₀ (by positivity) (by norm_num)]
    nlinarith [pow_pos (show (0 : ℝ) < 2 by norm_num) (m - 1)]
  have hk_nonneg : (0 : ℝ) ≤ k * Real.pi / 2 ^ m := by positivity
  have hsin : Real.sin (k * Real.pi / 2 ^ m) < Real.sin (l * Real.pi / 2 ^ m) := by
    apply Real.strictMonoOn_sin ?_ ?_ hangle_lt
    · constructor
      · linarith
      · linarith
    · constructor
      · have h0l : (0 : ℝ) ≤ l * Real.pi / 2 ^ m := by positivity
        linarith
      · exact hangle_le
  have hsin_nonneg : (0 : ℝ) ≤ Real.sin (k * Real.pi / 2 ^ m) := by
    apply Real.sin_nonneg_of_nonneg_of_le_pi hk_nonneg
    linarith
  exact pow_lt_pow_left₀ hsin hsin_nonneg (by norm_num)

/-- C3 witness: at `m = 1`, `sin²(0) < sin²(π/2)`. -/
theorem a_tildes_strictMono_witness :
    (1 ≤ 1 ∧ 0 < 1 ∧ 1 ≤ 2 ^ (1 - 1)) ∧
    (a_tildes 1).getD 0 0 < (a_tildes 1).getD 1 0 :=
  ⟨⟨le_refl 1, by norm_num, by norm_num⟩,
    a_tildes_strictMono 1 (le_refl 1) 0 1 (by norm_num) (by norm_num)⟩

/-- C9: for `m ≥ 1` and every folded-bin index `k ≤ 2^(m-1)`, the estimator
value `sin²(kπ/2^m)` lies in the closed interval `[0, 1]`. -/
theorem a_tildes_range (m k : ℕ) (hm : 1 ≤ m) (hk : k ≤ 2 ^ (m - 1)) :
    0 ≤ (a_tildes m).getD k 0 ∧ (a_tildes m).getD k 0 ≤ 1 := by
  rw [a_tildes_getD m k (by omega)]
  exact ⟨sq_nonneg _, Real.sin_sq_le_one _⟩

lemma argmaxGo_spec (xs : List ℚ) : ∀ (i best : ℕ) (bestVal : ℚ),
    bestVal ≤ (argmaxGo xs i best bestVal).2 ∧
    (∀ j, j < xs.length → xs.getD j 0 ≤ (argmaxGo xs i best bestVal).2) ∧
    (argmaxGo xs i best bestVal = (best, bestVal) ∨
      ∃ j, j < xs.length ∧ (argmaxGo xs i best bestVal).1 = i + j ∧
        (argmaxGo xs i best bestVal).2 = xs.getD j 0 ∧
        bestVal < xs.getD j 0 ∧
        ∀ j', j' < j → xs.getD j' 0 < xs.getD j 0) := by
  induction xs with
  | nil =>
      intro i best bestVal
      exact ⟨le_refl _, by simp, Or.inl rfl⟩
  | cons x rest ih =>
      intro i best bestVal
      by_cases hx : bestVal < x
      · have hgo : argmaxGo (x :: rest) i best bestVal = argmaxGo rest (i + 1) i x := by
          rw [argmaxGo, if_pos hx]
        obtain ⟨ih1, ih2, ih3⟩ := ih (i + 1) i x
        rw [hgo]
        refine ⟨le_trans (le_of_lt hx) ih1, ?_, ?_⟩
        · intro j hj
          cases j with
          | zero => simpa using ih1
          | succ j =>
              rw [List.getD_cons_succ]
              exact ih2 j (by simpa using hj)
        · rcases ih3 with heq | ⟨j, hj, hj1, hj2, hj3, hj4⟩
          · refine Or.inr ⟨0, by simp, ?_, ?_, by simpa using hx, ?_⟩
            · rw [heq]
              simp
            · rw [heq, List.getD_cons_zero]
            · intro j' hj'
              omega
          · refine Or.inr ⟨j + 1, by simpa using hj, by omega, ?_, ?_, ?_⟩
            · rw [List.getD_cons_succ]
              exact hj2
            · rw [List.getD_cons_succ]
              exact lt_trans hx hj3
            · intro j' hj'
              cases j' with
              | zero =>
                  rw [List.getD_cons_zero, List.getD_cons_succ]
                  exact hj3
              | succ j'' =>
                  rw [List.getD_cons_succ, List.getD_cons_succ]
                  exact hj4 j'' (by omega)
      · have hgo : argmaxGo (x :: rest) i best bestVal = argmaxGo rest (i + 1) best bestVal := by
          rw [argmaxGo, if_neg hx]
        push_neg at hx
        obtain ⟨ih1, ih2, ih3⟩ := ih (i + 1) best bestVal
        rw [hgo]
        refine ⟨ih1, ?_, ?_⟩
        · intro j hj
          cases j with
          | zero =>
              rw [List.getD_cons_zero]
              exact le_trans hx ih1
          | succ j =>
              rw [List.getD_cons_succ]
              exact ih2 j (by simpa using hj)
        · rcases ih3 with heq | ⟨j, hj, hj1, hj2, hj3, hj4⟩
          · exact Or.inl heq
          · refine Or.inr ⟨j + 1, by simpa using hj, by omega, ?_, ?_, ?_⟩
            · rw [List.getD_cons_succ]
              exact hj2
            · rw [List.getD_cons_succ]
              exact hj3
            · intro j' hj'
              cases j' with
              | zero =>
                  rw [List.getD_cons_zero, List.getD_cons_succ]
                  exact lt_of_le_of_lt hx hj3
              | succ j'' =>
                  rw [List.getD_cons_succ, List.getD_cons_succ]
                  exact hj4 j'' (by omega)

/-- C7: the point estimator `a_tildes[np.argmax(probs)]` is deterministic and
breaks ties towards the lowest folded-bin index: `argmax` returns an in-range
index of maximal aggregated probability, every earlier bin is strictly
smaller, and any bin tied with the maximum has an index `≥ argmax`, so the
returned estimator value is the one of the lowest tied index. -/
theorem argmax_first_of_max (m : ℕ) (probs : List ℚ) (hne : probs ≠ []) :
    lucky_a_tilde m probs = (a_tildes m).getD (argmax probs) 0 ∧
    argmax probs < probs.length ∧
    (∀ j, j < probs.length → probs.getD j 0 ≤ probs.getD (argmax probs) 0) ∧
    (∀ j, j < argmax probs → probs.getD j 0 < probs.getD (argmax probs) 0) ∧
    (∀ j, j < probs.length → probs.getD j 0 = probs.getD (argmax probs) 0 →
      argmax probs ≤ j) := by
  obtain ⟨x, rest, rfl⟩ : ∃ x rest, probs = x :: rest := by
    cases probs with
    | nil => exact absurd rfl hne
    | cons x rest => exact ⟨x, rest, rfl⟩
  have hmax : argmax (x :: rest) = (argmaxGo rest 1 0 x).1 := rfl
  obtain ⟨s1, s2, s3⟩ := argmaxGo_spec rest 1 0 x
  rcases s3 with heq | ⟨j, hj, hj1, hj2, hj3, hj4⟩
  · have ha : argmax (x :: rest) = 0 := by rw [hmax, heq]
    have hval : (x :: rest).getD (argmax (x :: rest)) 0 = x := by
      rw [ha, List.getD_cons_zero]
    have hres2 : (argmaxGo rest 1 0 x).2 = x := by rw [heq]
    have hstrict : ∀ j, j < argmax (x :: rest) →
        (x :: rest).getD j 0 < (x :: rest).getD (argmax (x :: rest)) 0 := by
      intro j hjlt
      rw [ha] at hjlt
      omega
    refine ⟨rfl, by simp [ha], ?_, hstrict, ?_⟩
    · intro j hjlen
      cases j with
      | zero => rw [List.getD_cons_zero, hval]
      | succ j =>
          rw [List.getD_cons_succ, hval]
          have := s2 j (by simpa using hjlen)
          rw [hres2] at this
          exact this
    · intro j _ _
      rw [ha]
      omega
  · have ha : argmax (x :: rest) = j + 1 := by
      rw [hmax]
      omega
    have hval : (x :: rest).getD (argmax (x :: rest)) 0 = rest.getD j 0 := by
      rw [ha, List.getD_cons_succ]
    have hstrict : ∀ j', j' < argmax (x :: rest) →
        (x :: rest).getD j' 0 < (x :: rest).getD (argmax (x :: rest)) 0 := by
      intro j' hjlt
      rw [ha] at hjlt
      rw [hval]
      cases j' with
      | zero => rw [List.getD_cons_zero]; exact hj3
      | succ j'' => rw [List.getD_cons_succ]; exact hj4 j'' (by omega)
    refine ⟨rfl, by rw [ha]; simpa using hj, ?_, hstrict, ?_⟩
    · intro j' hjlen
      rw [hval]
      cases j' with
      | zero => rw [List.getD_cons_zero]; exact le_of_lt hj3
      | succ j'' =>
          rw [List.getD_cons_succ]
          have := s2 j'' (by simpa using hjlen)
          rw [hj2] at this
          exact this
    · intro j' hjlen heq'
      by_contra hcon
      push_neg at hcon
      exact absurd heq' (ne_of_lt (hstrict j' hcon))

/-- C7 witness: on the exactly tied posterior `[1/2, 1/2]` at `m = 1`, the
point estimator picks index `0`, the lowest tied bin. -/
theorem argmax_first_of_max_witness :
    ([(1 : ℚ)/2, 1/2] ≠ []) ∧
    (lucky_a_tilde 1 [(1 : ℚ)/2, 1/2] =
        (a_tildes 1).getD (argmax [(1 : ℚ)/2, 1/2]) 0 ∧
     argmax [(1 : ℚ)/2, 1/2] < ([(1 : ℚ)/2, 1/2]).length ∧
     (∀ j, j < ([(1 : ℚ)/2, 1/2]).length →
        ([(1 : ℚ)/2, 1/2]).getD j 0 ≤ ([(1 : ℚ)/2, 1/2]).getD (argmax [(1 : ℚ)/2, 1/2]) 0) ∧
     (∀ j, j < argmax [(1 : ℚ)/2, 1/2] →
        ([(1 : ℚ)/2, 1/2]).getD j 0 < ([(1 : ℚ)/2, 1/2]).getD (argmax [(1 : ℚ)/2, 1/2]) 0) ∧
     (∀ j, j < ([(1 : ℚ)/2, 1/2]).length →
        ([(1 : ℚ)/2, 1/2]).getD j 0 = ([(1 : ℚ)/2, 1/2]).getD (argmax [(1 : ℚ)/2, 1/2]) 0 →
        argmax [(1 : ℚ)/2, 1/2] ≤ j)) :=
  ⟨by simp, argmax_first_of_max 1 [(1 : ℚ)/2, 1/2] (by simp)⟩

/-- C9 witness: the estimator value at `m = 1`, `k = 1` lies in `[0, 1]`. -/
theorem a_tildes_range_witness :
    (1 ≤ 1 ∧ 1 ≤ 2 ^ (1 - 1)) ∧
    (0 ≤ (a_tildes 1).getD 1 0 ∧ (a_tildes 1).getD 1 0 ≤ 1) :=
  ⟨⟨le_refl 1, by norm_num⟩, a_tildes_range 1 1 (le_refl 1) (by norm_num)⟩

end Quantum
